import Mathlib

set_option maxRecDepth 100000

/-!
Shallow embedding of `samples/rust/rust_device.rs`: a lazily growing,
block-structured byte store exposed through `read`/`write` device
operations.

Modelling conventions:
* Bytes are `Nat`; a block is a `List Nat`; the store is a `List (List Nat)`.
* `usize` and `u64` are both 64-bit in the kernel; values live in `Nat` and
  `checked_add` tests explicitly against `2 ^ 64`.
* Fallible allocation (`try_push`, `try_resize`) is driven by oracles:
  `ap : Nat → Bool` gives the outcome of the k-th `try_push` of a call and
  `ar : Bool` the outcome of the `try_resize` step.
* An `unwrap` on a failed `checked_add` and an out-of-bounds slice both
  abort the process in the source; the model returns `.abort` with the
  reason (`ovf` for the failed unwrap, `oob` for the failed index).
* The user-memory transfer primitives (`write_slice` / `read_slice`) are
  opaque capabilities per the design: the model assumes the user-memory
  copy itself succeeds and represents the sink by its capacity and the
  source by its byte contents.
* `_offset.checked_div(BLOCK_SIZE)` / `checked_rem` never return `None`
  (the divisor is the non-zero constant 4096), and the `usize ↔ u64`
  conversions never fail on a 64-bit target, so they are modelled as
  `/`, `%` and the identity.
-/

def BLOCK_SIZE : Nat := 4096

/-- One past the maximum value of `u64` (and of `usize` on a 64-bit kernel). -/
def LIMIT : Nat := 2 ^ 64

/-- Rust `checked_add` on 64-bit unsigned integers. -/
def checkedAdd (a b : Nat) : Option Nat :=
  if a + b < LIMIT then some (a + b) else none

/-- Rust `Vec::resize(n, x)`: truncate to `n`, or extend with copies of `x`. -/
def vecResize (v : List Nat) (n : Nat) (x : Nat) : List Nat :=
  if n ≤ v.length then v.take n else v ++ List.replicate (n - v.length) x

/-- Why the modelled process aborted: a failed `checked_add` unwrap, or an
out-of-bounds index/slice. -/
inductive Reason where
  | ovf
  | oob
  deriving DecidableEq, Repr

/-- Errors returned (not aborts): the source only ever returns `ENOMEM` from
this code path (`EINVAL` conversions cannot fire on a 64-bit target). -/
inductive Err where
  | ENOMEM
  deriving DecidableEq, Repr

/-- Outcome of an operation: a value, a returned error, or a process abort. -/
inductive Res (α : Type) where
  | ok (a : α)
  | err (e : Err)
  | abort (r : Reason)
  deriving DecidableEq, Repr

/-- Device state: the block sequence and the shared cursor.  The two mutexes
of the source serialize the sequential executions modelled here. -/
structure Device where
  data : List (List Nat)
  cursor : Nat
  deriving DecidableEq, Repr

/-- Constructor `Device::try_new`: empty block sequence (`try_with_capacity` reserves
capacity only), cursor zero. -/
def Device.try_new : Device := ⟨[], 0⟩

/-- The `for _i in 0..fill` push loop of `Device.find_block`: push empty vectors
until done or until a `try_push` fails; returns the (possibly grown) data
and whether every push succeeded. -/
def pushLoop (ap : Nat → Bool) (k : Nat) (dat : List (List Nat)) :
    Nat → List (List Nat) × Bool
  | 0 => (dat, true)
  | n + 1 =>
    if ap k then pushLoop ap (k + 1) (dat ++ [[]]) n
    else (dat, false)

/-- Method `Device::find_block`: grow the sequence so `row` is a valid index, then
resize the block at `row` to `BLOCK_SIZE` (zero fill) unless already that
length.  Returns the updated data together with the result. -/
def Device.find_block (ap : Nat → Bool) (ar : Bool) (dat : List (List Nat))
    (row : Nat) : List (List Nat) × Res Nat :=
  let grown :=
    if dat.length ≤ row then pushLoop ap 0 dat (row - dat.length + 1)
    else (dat, true)
  let dat1 := grown.1
  if grown.2 then
    match dat1[row]? with
    | some blk =>
      if blk.length ≠ BLOCK_SIZE then
        if ar then (dat1.set row (vecResize blk BLOCK_SIZE 0), .ok BLOCK_SIZE)
        else (dat1, .err .ENOMEM)
      else (dat1, .ok BLOCK_SIZE)
    | none => (dat1, .abort .oob)
  else (dat1, .err .ENOMEM)

/-- The slice `l[a..b]` of Rust, guarded: `none` models the panic branch of
out-of-range slicing. -/
def sliceRange (l : List Nat) (a b : Nat) : Option (List Nat) :=
  if a ≤ b ∧ b ≤ l.length then some ((l.drop a).take (b - a)) else none

/-- Overwrite bytes `[a, b)` of `blk` with the first `b - a` bytes of `src`
(the effect of `read_slice(&mut blk[a..b])`). -/
def writeRange (blk : List Nat) (a b : Nat) (src : List Nat) : List Nat :=
  blk.take a ++ src.take (b - a) ++ blk.drop b

/-- Method `Operations::read`: `n` is the destination buffer's capacity
(`user_buff.len()`); on success the result carries the return value
`end - offset` and the bytes pushed into the sink. -/
def Device.read (ap : Nat → Bool) (ar : Bool) (dev : Device) (off : Nat) (n : Nat) :
    Device × Res (Nat × List Nat) :=
  if n = 0 then (dev, .ok (0, [])) else
  match checkedAdd off dev.cursor with
  | none => (dev, .abort .ovf)
  | some total =>
    let row := total / BLOCK_SIZE
    let o := total % BLOCK_SIZE
    let fb := Device.find_block ap ar dev.data row
    let dev1 : Device := { dev with data := fb.1 }
    match fb.2 with
    | .ok bytes =>
      match checkedAdd n o with
      | none => (dev1, .abort .ovf)
      | some tot =>
        let e := if tot < bytes then tot else bytes
        match dev1.data[row]? with
        | some blk =>
          match sliceRange blk o e with
          | some s => (dev1, .ok (e - o, s))
          | none => (dev1, .abort .oob)
        | none => (dev1, .abort .oob)
    | .err er => (dev1, .err er)
    | .abort r => (dev1, .abort r)

/-- Method `Operations::write`: `buf` is the source buffer's contents; on success
the result carries the return value `end - offset`. -/
def Device.write (ap : Nat → Bool) (ar : Bool) (dev : Device) (off : Nat)
    (buf : List Nat) : Device × Res Nat :=
  if buf.length = 0 then (dev, .ok 0) else
  match checkedAdd off dev.cursor with
  | none => (dev, .abort .ovf)
  | some total =>
    let row := total / BLOCK_SIZE
    let o := total % BLOCK_SIZE
    let fb := Device.find_block ap ar dev.data row
    let dev1 : Device := { dev with data := fb.1 }
    match fb.2 with
    | .ok bytes =>
      match checkedAdd buf.length o with
      | none => (dev1, .abort .ovf)
      | some tot =>
        let e := if tot < bytes then tot else bytes
        match dev1.data[row]? with
        | some blk =>
          if o ≤ e ∧ e ≤ blk.length then
            ({ dev1 with data := dev1.data.set row (writeRange blk o e buf) },
             .ok (e - o))
          else (dev1, .abort .oob)
        | none => (dev1, .abort .oob)
    | .err er => (dev1, .err er)
    | .abort r => (dev1, .abort r)

/-- One device operation, carrying its allocation oracles. -/
inductive Op where
  | rd (off n : Nat) (ap : Nat → Bool) (ar : Bool)
  | wr (off : Nat) (buf : List Nat) (ap : Nat → Bool) (ar : Bool)

/-- The state after one operation (successful or failing). -/
def step (dev : Device) : Op → Device
  | .rd off n ap ar => (Device.read ap ar dev off n).1
  | .wr off buf ap ar => (Device.write ap ar dev off buf).1

/-- The state after a sequence of operations. -/
def run (dev : Device) (ops : List Op) : Device := ops.foldl step dev

/-- States reachable from the freshly constructed device. -/
inductive Reachable : Device → Prop where
  | init : Reachable Device.try_new
  | more (d : Device) (op : Op) : Reachable d → Reachable (step d op)

example : (Device.find_block (fun _ => true) true [] 0).2 = .ok BLOCK_SIZE := by decide
example : Device.find_block (fun _ => false) true [] 2 = ([], .err .ENOMEM) := by decide

/-! ### Basic lemmas about the building blocks -/

theorem blockSize_pos : 0 < BLOCK_SIZE := by decide

theorem checkedAdd_some (a b : Nat) (h : a + b < LIMIT) :
    checkedAdd a b = some (a + b) := by
  unfold checkedAdd
  rw [if_pos h]

theorem checkedAdd_none (a b : Nat) (h : LIMIT ≤ a + b) :
    checkedAdd a b = none := by
  unfold checkedAdd
  rw [if_neg (Nat.not_lt.mpr h)]

theorem vecResize_length (v : List Nat) (n x : Nat) : (vecResize v n x).length = n := by
  unfold vecResize
  split
  · simp
    omega
  · simp
    omega

theorem vecResize_eq_append (v : List Nat) (n x : Nat) (h : v.length ≤ n) :
    vecResize v n x = v ++ List.replicate (n - v.length) x := by
  unfold vecResize
  split
  · have hv : n = v.length := Nat.le_antisymm (by assumption) h
    subst hv
    simp
  · rfl

theorem vecResize_nil (n x : Nat) : vecResize [] n x = List.replicate n x := by
  rw [vecResize_eq_append _ _ _ (by simp)]
  simp

theorem pushLoop_spec (ap : Nat → Bool) (n : Nat) :
    ∀ (k : Nat) (dat : List (List Nat)),
      ∃ m, m ≤ n ∧ (pushLoop ap k dat n).1 = dat ++ List.replicate m ([] : List Nat) ∧
        ((pushLoop ap k dat n).2 = true → m = n) := by
  induction n with
  | zero =>
    intro k dat
    exact ⟨0, Nat.le_refl 0, by simp [pushLoop], fun _ => rfl⟩
  | succ n ih =>
    intro k dat
    by_cases h : ap k
    · obtain ⟨m, hm, h1, h2⟩ := ih (k + 1) (dat ++ [[]])
      refine ⟨m + 1, by omega, ?_, ?_⟩
      · simp only [pushLoop, h, if_true, h1, List.append_assoc]
        simp [List.replicate_succ]
      · intro hs
        simp only [pushLoop, h, if_true] at hs
        have := h2 hs
        omega
    · exact ⟨0, by omega, by simp [pushLoop, h], by simp [pushLoop, h]⟩

theorem pushLoop_true (n : Nat) :
    ∀ (k : Nat) (dat : List (List Nat)),
      pushLoop (fun _ => true) k dat n = (dat ++ List.replicate n ([] : List Nat), true) := by
  induction n with
  | zero => intro k dat; simp [pushLoop]
  | succ n ih =>
    intro k dat
    simp only [pushLoop, if_true, ih, List.append_assoc]
    simp [List.replicate_succ]

/-- Full case analysis of `Device.find_block`: the data either only grew by a tail
of empty blocks, or additionally had the block at `row` resized to
`BLOCK_SIZE`; the result is `ok BLOCK_SIZE` or `err ENOMEM`, never an
abort. -/
theorem find_block_cases (ap : Nat → Bool) (ar : Bool) (dat : List (List Nat)) (row : Nat) :
    ∃ m, (dat.length ≤ row → dat.length + m ≤ row + 1) ∧ (row < dat.length → m = 0) ∧
      (((Device.find_block ap ar dat row).1 = dat ++ List.replicate m [] ∧
          ((Device.find_block ap ar dat row).2 = .err .ENOMEM ∨
           ∃ blk, (dat ++ List.replicate m ([] : List Nat))[row]? = some blk ∧
             blk.length = BLOCK_SIZE ∧ (Device.find_block ap ar dat row).2 = .ok BLOCK_SIZE)) ∨
        ∃ blk, (dat ++ List.replicate m ([] : List Nat))[row]? = some blk ∧
          blk.length ≠ BLOCK_SIZE ∧
          (Device.find_block ap ar dat row).1 =
            (dat ++ List.replicate m []).set row (vecResize blk BLOCK_SIZE 0) ∧
          (Device.find_block ap ar dat row).2 = .ok BLOCK_SIZE) := by
  by_cases hrow : dat.length ≤ row
  · obtain ⟨m, hm, h1, h2⟩ := pushLoop_spec ap (row - dat.length + 1) 0 dat
    refine ⟨m, fun _ => by omega, fun h => by omega, ?_⟩
    simp only [Device.find_block, if_pos hrow]
    cases hg : (pushLoop ap 0 dat (row - dat.length + 1)).2 with
    | false =>
      rw [if_neg Bool.false_ne_true]
      exact .inl ⟨h1, .inl rfl⟩
    | true =>
      have hmn : m = row - dat.length + 1 := h2 hg
      have hsome : (dat ++ List.replicate m ([] : List Nat))[row]? = some [] := by
        rw [List.getElem?_append_right hrow]
        exact List.getElem?_replicate_of_lt (by omega)
      rw [if_pos rfl, h1]
      simp only [hsome]
      rw [if_pos (by decide : ¬ ([] : List Nat).length = BLOCK_SIZE)]
      cases ar with
      | false =>
        rw [if_neg Bool.false_ne_true]
        exact .inl ⟨rfl, .inl rfl⟩
      | true =>
        rw [if_pos rfl]
        exact .inr ⟨[], rfl, by decide, rfl, rfl⟩
  · have hlt : row < dat.length := Nat.lt_of_not_le hrow
    refine ⟨0, fun h => by omega, fun _ => rfl, ?_⟩
    have hnil : dat ++ List.replicate 0 ([] : List Nat) = dat := by simp
    have hsome : dat[row]? = some dat[row] := List.getElem?_eq_getElem hlt
    rw [hnil]
    simp only [Device.find_block, if_neg hrow, hsome, if_true]
    by_cases hfull : dat[row].length = BLOCK_SIZE
    · rw [if_neg (fun h => h hfull)]
      exact .inl ⟨rfl, .inr ⟨dat[row], rfl, hfull, rfl⟩⟩
    · rw [if_pos hfull]
      cases ar with
      | false =>
        rw [if_neg Bool.false_ne_true]
        exact .inl ⟨rfl, .inl rfl⟩
      | true =>
        rw [if_pos rfl]
        exact .inr ⟨dat[row], rfl, hfull, rfl, rfl⟩

/-- On success `Device.find_block` returned `BLOCK_SIZE` and either appended the
missing rows and materialized row `row`, or operated on an existing row. -/
theorem find_block_ok (ap : Nat → Bool) (ar : Bool) (dat : List (List Nat)) (row n : Nat)
    (h : (Device.find_block ap ar dat row).2 = .ok n) :
    n = BLOCK_SIZE ∧
    ((dat.length ≤ row ∧
        (Device.find_block ap ar dat row).1 =
          (dat ++ List.replicate (row + 1 - dat.length) []).set row
            (List.replicate BLOCK_SIZE 0)) ∨
     (row < dat.length ∧
       ∃ blk, dat[row]? = some blk ∧
         ((blk.length = BLOCK_SIZE ∧ (Device.find_block ap ar dat row).1 = dat) ∨
          (blk.length ≠ BLOCK_SIZE ∧
            (Device.find_block ap ar dat row).1 = dat.set row (vecResize blk BLOCK_SIZE 0))))) := by
  obtain ⟨m, hb1, hb2, hc⟩ := find_block_cases ap ar dat row
  rcases hc with ⟨hd, herr | ⟨blk, hblk, hlen, hres⟩⟩ | ⟨blk, hblk, hlen, hd, hres⟩
  · rw [h] at herr
    cases herr
  · rw [h] at hres
    refine ⟨by injection hres, ?_⟩
    by_cases hrow : dat.length ≤ row
    · -- then `blk` comes from the replicate tail, so it is empty: impossible
      exfalso
      rw [List.getElem?_append_right hrow] at hblk
      have hlt : row - dat.length < m := by
        rcases Nat.lt_or_ge (row - dat.length) m with h' | h'
        · exact h'
        · rw [List.getElem?_eq_none (by simpa using h')] at hblk
          cases hblk
      rw [List.getElem?_replicate_of_lt hlt] at hblk
      have : blk = [] := by injection hblk; simp [*]
      subst this
      simp [BLOCK_SIZE] at hlen
    · have hlt : row < dat.length := Nat.lt_of_not_le hrow
      have hm0 : m = 0 := hb2 hlt
      subst hm0
      simp only [List.replicate_zero, List.append_nil] at hblk hd
      exact .inr ⟨hlt, blk, hblk, .inl ⟨hlen, hd⟩⟩
  · rw [h] at hres
    refine ⟨by injection hres, ?_⟩
    by_cases hrow : dat.length ≤ row
    · left
      refine ⟨hrow, ?_⟩
      -- the index is inside the appended tail, so the block found is empty
      have hlt : row - dat.length < m := by
        rw [List.getElem?_append_right hrow] at hblk
        rcases Nat.lt_or_ge (row - dat.length) m with h' | h'
        · exact h'
        · rw [List.getElem?_eq_none (by simpa using h')] at hblk
          cases hblk
      have hm : dat.length + m = row + 1 := by
        have := hb1 hrow
        omega
      have hblk' : blk = [] := by
        rw [List.getElem?_append_right hrow, List.getElem?_replicate_of_lt hlt] at hblk
        injection hblk
        simp [*]
      subst hblk'
      have hm2 : m = row + 1 - dat.length := by omega
      rw [hd, vecResize_nil, hm2]
    · have hlt : row < dat.length := Nat.lt_of_not_le hrow
      have hm0 : m = 0 := hb2 hlt
      subst hm0
      simp only [List.replicate_zero, List.append_nil] at hblk hd
      exact .inr ⟨hlt, blk, hblk, .inr ⟨hlen, hd⟩⟩

/-- On success the block at `row` in the resulting data has length exactly
`BLOCK_SIZE`, and `row` is a valid index. -/
theorem find_block_ok_blk (ap : Nat → Bool) (ar : Bool) (dat : List (List Nat)) (row n : Nat)
    (h : (Device.find_block ap ar dat row).2 = .ok n) :
    ∃ blk, (Device.find_block ap ar dat row).1[row]? = some blk ∧ blk.length = BLOCK_SIZE := by
  obtain ⟨-, hc⟩ := find_block_ok ap ar dat row n h
  rcases hc with ⟨hrow, hd⟩ | ⟨hrow, blk, hblk, ⟨hlen, hd⟩ | ⟨hlen, hd⟩⟩
  · refine ⟨List.replicate BLOCK_SIZE 0, ?_, by simp⟩
    rw [hd]
    exact List.getElem?_set_self (by simp; omega)
  · exact ⟨blk, by rw [hd, hblk], hlen⟩
  · refine ⟨vecResize blk BLOCK_SIZE 0, ?_, vecResize_length blk BLOCK_SIZE 0⟩
    rw [hd]
    exact List.getElem?_set_self (by simpa using hrow)

/-- Growth only: `Device.find_block` never shrinks the data and never disturbs a block that is
already at full length. -/
theorem find_block_mono (ap : Nat → Bool) (ar : Bool) (dat : List (List Nat)) (row : Nat) :
    dat.length ≤ (Device.find_block ap ar dat row).1.length ∧
    ∀ (i : Nat) (b : List Nat), dat[i]? = some b → b.length = BLOCK_SIZE →
      (Device.find_block ap ar dat row).1[i]? = some b := by
  obtain ⟨m, -, -, hc⟩ := find_block_cases ap ar dat row
  have key : ∀ (i : Nat) (b : List Nat), dat[i]? = some b →
      (dat ++ List.replicate m ([] : List Nat))[i]? = some b := by
    intro i b hb
    have hi : i < dat.length := by
      rcases Nat.lt_or_ge i dat.length with h' | h'
      · exact h'
      · rw [List.getElem?_eq_none h'] at hb
        cases hb
    rw [List.getElem?_append_left hi]
    exact hb
  rcases hc with ⟨hd, -⟩ | ⟨blk, hblk, hlen, hd, -⟩
  · constructor
    · rw [hd]
      simp
    · intro i b hb _
      rw [hd]
      exact key i b hb
  · constructor
    · rw [hd]
      simp
    · intro i b hb hfull
      rw [hd]
      have hne : row ≠ i := by
        intro he
        subst he
        rw [key row b hb] at hblk
        injection hblk with he2
        exact hlen (he2 ▸ hfull)
      rw [List.getElem?_set_ne hne]
      exact key i b hb

/-- With an always-succeeding allocator, `Device.find_block` always succeeds and
leaves `row` a valid index. -/
theorem find_block_total (dat : List (List Nat)) (row : Nat) :
    (Device.find_block (fun _ => true) true dat row).2 = .ok BLOCK_SIZE ∧
    row < (Device.find_block (fun _ => true) true dat row).1.length := by
  by_cases hrow : dat.length ≤ row
  · have hpush := pushLoop_true (row - dat.length + 1) 0 dat
    have hsome : (dat ++ List.replicate (row - dat.length + 1) ([] : List Nat))[row]? =
        some [] := by
      rw [List.getElem?_append_right hrow]
      exact List.getElem?_replicate_of_lt (by omega)
    simp only [Device.find_block, if_pos hrow, hpush, if_true]
    simp only [hsome]
    rw [if_pos (by decide : ¬ ([] : List Nat).length = BLOCK_SIZE)]
    simp only [if_true]
    refine ⟨by trivial, ?_⟩
    simp
    omega
  · have hlt : row < dat.length := Nat.lt_of_not_le hrow
    have hsome : dat[row]? = some dat[row] := List.getElem?_eq_getElem hlt
    simp only [Device.find_block, if_neg hrow, hsome, if_true]
    by_cases hfull : dat[row].length = BLOCK_SIZE
    · rw [if_neg (fun h => h hfull)]
      exact ⟨rfl, hlt⟩
    · rw [if_pos hfull]
      simp only [if_true]
      exact ⟨by trivial, by simpa using hlt⟩

/-- Idempotence: `Device.find_block` on an already materialized row changes nothing. -/
theorem find_block_materialized (ap : Nat → Bool) (ar : Bool) (dat : List (List Nat))
    (row : Nat) (blk : List Nat) (hblk : dat[row]? = some blk)
    (hlen : blk.length = BLOCK_SIZE) :
    Device.find_block ap ar dat row = (dat, .ok BLOCK_SIZE) := by
  have hlt : row < dat.length := by
    rcases Nat.lt_or_ge row dat.length with h' | h'
    · exact h'
    · rw [List.getElem?_eq_none h'] at hblk
      cases hblk
  have hrow : ¬ dat.length ≤ row := Nat.not_le.mpr hlt
  simp only [Device.find_block, if_neg hrow, hblk, if_true]
  rw [if_neg (fun h => h hlen)]

theorem ite_min (a b : Nat) : (if a < b then a else b) = min a b := by
  by_cases h : a < b
  · rw [if_pos h, Nat.min_eq_left (Nat.le_of_lt h)]
  · rw [if_neg h, Nat.min_eq_right (Nat.le_of_not_lt h)]

/-- A `Device.read` whose target block is already materialized leaves the device
unchanged and returns the clipped slice of that block. -/
theorem read_materialized (ap : Nat → Bool) (ar : Bool) (dev : Device)
    (off n total : Nat) (blk : List Nat)
    (ht : checkedAdd off dev.cursor = some total)
    (hblk : dev.data[total / BLOCK_SIZE]? = some blk)
    (hlen : blk.length = BLOCK_SIZE)
    (hov : n + total % BLOCK_SIZE < LIMIT) :
    Device.read ap ar dev off n =
      (dev, .ok (min (n + total % BLOCK_SIZE) BLOCK_SIZE - total % BLOCK_SIZE,
        (blk.drop (total % BLOCK_SIZE)).take
          (min (n + total % BLOCK_SIZE) BLOCK_SIZE - total % BLOCK_SIZE))) := by
  have homod : total % BLOCK_SIZE < BLOCK_SIZE := Nat.mod_lt _ blockSize_pos
  by_cases hn : n = 0
  · subst hn
    have hmin : min (0 + total % BLOCK_SIZE) BLOCK_SIZE - total % BLOCK_SIZE = 0 := by
      omega
    rw [hmin]
    simp only [Device.read, if_pos rfl, if_true, List.take_zero]
  · have he : (if n + total % BLOCK_SIZE < BLOCK_SIZE then n + total % BLOCK_SIZE
        else BLOCK_SIZE) = min (n + total % BLOCK_SIZE) BLOCK_SIZE :=
      ite_min _ _
    have hcond : total % BLOCK_SIZE ≤ min (n + total % BLOCK_SIZE) BLOCK_SIZE ∧
        min (n + total % BLOCK_SIZE) BLOCK_SIZE ≤ blk.length := by
      rw [hlen]
      omega
    simp only [Device.read, if_neg hn, ht,
      find_block_materialized ap ar dev.data (total / BLOCK_SIZE) blk hblk hlen,
      checkedAdd_some n (total % BLOCK_SIZE) hov, hblk, he, sliceRange,
      if_pos hcond]

/-- A `write` whose target block is already materialized overwrites the
clipped byte range of that block and returns the clipped count. -/
theorem write_materialized (ap : Nat → Bool) (ar : Bool) (dev : Device)
    (off total : Nat) (buf blk : List Nat)
    (hb : ¬ buf.length = 0)
    (ht : checkedAdd off dev.cursor = some total)
    (hblk : dev.data[total / BLOCK_SIZE]? = some blk)
    (hlen : blk.length = BLOCK_SIZE)
    (hov : buf.length + total % BLOCK_SIZE < LIMIT) :
    Device.write ap ar dev off buf =
      (⟨dev.data.set (total / BLOCK_SIZE)
          (writeRange blk (total % BLOCK_SIZE)
            (min (buf.length + total % BLOCK_SIZE) BLOCK_SIZE) buf), dev.cursor⟩,
       .ok (min (buf.length + total % BLOCK_SIZE) BLOCK_SIZE - total % BLOCK_SIZE)) := by
  have homod : total % BLOCK_SIZE < BLOCK_SIZE := Nat.mod_lt _ blockSize_pos
  have he : (if buf.length + total % BLOCK_SIZE < BLOCK_SIZE then
      buf.length + total % BLOCK_SIZE else BLOCK_SIZE) =
      min (buf.length + total % BLOCK_SIZE) BLOCK_SIZE := ite_min _ _
  have hcond : total % BLOCK_SIZE ≤ min (buf.length + total % BLOCK_SIZE) BLOCK_SIZE ∧
      min (buf.length + total % BLOCK_SIZE) BLOCK_SIZE ≤ blk.length := by
    rw [hlen]
    omega
  simp only [Device.write, if_neg hb, ht,
    find_block_materialized ap ar dev.data (total / BLOCK_SIZE) blk hblk hlen,
    checkedAdd_some buf.length (total % BLOCK_SIZE) hov, hblk, he, if_pos hcond]

theorem checkedAdd_inv (a b t : Nat) (h : checkedAdd a b = some t) :
    t = a + b ∧ a + b < LIMIT := by
  unfold checkedAdd at h
  by_cases hc : a + b < LIMIT
  · rw [if_pos hc] at h
    injection h with h2
    exact ⟨h2.symm, hc⟩
  · rw [if_neg hc] at h
    cases h

/-- Safety: `find_block` itself never takes its out-of-bounds branch. -/
theorem find_block_no_abort (ap : Nat → Bool) (ar : Bool) (dat : List (List Nat))
    (row : Nat) (r : Reason) :
    (Device.find_block ap ar dat row).2 ≠ .abort r := by
  obtain ⟨m, -, -, hc⟩ := find_block_cases ap ar dat row
  intro hx
  rcases hc with ⟨-, herr | ⟨blk, -, -, hok⟩⟩ | ⟨blk, -, -, -, hok⟩
  · rw [hx] at herr
    cases herr
  · rw [hx] at hok
    cases hok
  · rw [hx] at hok
    cases hok

/-- Inversion of a successful `write`: either the buffer was empty and
nothing happened, or the clipped range of the target block was overwritten. -/
theorem write_ok_inv (ap : Nat → Bool) (ar : Bool) (dev dev' : Device) (off n : Nat)
    (buf : List Nat)
    (h : Device.write ap ar dev off buf = (dev', .ok n)) :
    (buf.length = 0 ∧ dev' = dev ∧ n = 0) ∨
    (buf.length ≠ 0 ∧
      ∃ total blk,
        checkedAdd off dev.cursor = some total ∧
        buf.length + total % BLOCK_SIZE < LIMIT ∧
        (Device.find_block ap ar dev.data (total / BLOCK_SIZE)).2 = .ok BLOCK_SIZE ∧
        (Device.find_block ap ar dev.data (total / BLOCK_SIZE)).1[total / BLOCK_SIZE]? =
          some blk ∧
        blk.length = BLOCK_SIZE ∧
        n = min (buf.length + total % BLOCK_SIZE) BLOCK_SIZE - total % BLOCK_SIZE ∧
        dev' = ⟨(Device.find_block ap ar dev.data (total / BLOCK_SIZE)).1.set
            (total / BLOCK_SIZE)
            (writeRange blk (total % BLOCK_SIZE)
              (min (buf.length + total % BLOCK_SIZE) BLOCK_SIZE) buf), dev.cursor⟩) := by
  by_cases hb : buf.length = 0
  · simp only [Device.write, if_pos hb] at h
    rw [Prod.mk.injEq] at h
    obtain ⟨h1, h2⟩ := h
    injection h2 with h3
    exact .inl ⟨hb, h1.symm, h3.symm⟩
  · right
    refine ⟨hb, ?_⟩
    simp only [Device.write, if_neg hb] at h
    cases ht : checkedAdd off dev.cursor with
    | none =>
      rw [ht] at h
      simp at h
    | some total =>
      rw [ht] at h
      simp only at h
      cases hfb : (Device.find_block ap ar dev.data (total / BLOCK_SIZE)).2 with
      | err e =>
        rw [hfb] at h
        simp at h
      | abort r => exact absurd hfb (find_block_no_abort ap ar dev.data _ r)
      | ok bytes =>
        have hbytes : bytes = BLOCK_SIZE := (find_block_ok ap ar dev.data _ bytes hfb).1
        subst hbytes
        rw [hfb] at h
        simp only at h
        cases ht2 : checkedAdd buf.length (total % BLOCK_SIZE) with
        | none =>
          rw [ht2] at h
          simp at h
        | some tot =>
          rw [ht2] at h
          simp only at h
          obtain ⟨htot, hov⟩ := checkedAdd_inv _ _ _ ht2
          subst htot
          obtain ⟨blk, hblk, hblen⟩ := find_block_ok_blk ap ar dev.data _ _ hfb
          rw [hblk] at h
          simp only at h
          have hcond : total % BLOCK_SIZE ≤
              (if buf.length + total % BLOCK_SIZE < BLOCK_SIZE then
                buf.length + total % BLOCK_SIZE else BLOCK_SIZE) ∧
              (if buf.length + total % BLOCK_SIZE < BLOCK_SIZE then
                buf.length + total % BLOCK_SIZE else BLOCK_SIZE) ≤ blk.length := by
            rw [ite_min, hblen]
            have : total % BLOCK_SIZE < BLOCK_SIZE := Nat.mod_lt _ blockSize_pos
            omega
          rw [if_pos hcond] at h
          rw [Prod.mk.injEq] at h
          obtain ⟨h1, h2⟩ := h
          injection h2 with h3
          refine ⟨total, blk, rfl, hov, hfb, hblk, hblen, ?_, ?_⟩
          · rw [← h3, ite_min]
          · rw [← h1, ite_min]

/-- Inversion of a successful `read`: either the buffer was empty, or the
clipped slice of the (materialized) target block was returned and the
device kept the data produced by `find_block`. -/
theorem read_ok_inv (ap : Nat → Bool) (ar : Bool) (dev dev' : Device) (off L n : Nat)
    (s : List Nat)
    (h : Device.read ap ar dev off L = (dev', .ok (n, s))) :
    (L = 0 ∧ dev' = dev ∧ n = 0 ∧ s = []) ∨
    (L ≠ 0 ∧
      ∃ total blk,
        checkedAdd off dev.cursor = some total ∧
        L + total % BLOCK_SIZE < LIMIT ∧
        (Device.find_block ap ar dev.data (total / BLOCK_SIZE)).2 = .ok BLOCK_SIZE ∧
        (Device.find_block ap ar dev.data (total / BLOCK_SIZE)).1[total / BLOCK_SIZE]? =
          some blk ∧
        blk.length = BLOCK_SIZE ∧
        n = min (L + total % BLOCK_SIZE) BLOCK_SIZE - total % BLOCK_SIZE ∧
        s = (blk.drop (total % BLOCK_SIZE)).take n ∧
        dev' = ⟨(Device.find_block ap ar dev.data (total / BLOCK_SIZE)).1, dev.cursor⟩) := by
  by_cases hL : L = 0
  · simp only [Device.read, if_pos hL] at h
    rw [Prod.mk.injEq] at h
    obtain ⟨h1, h2⟩ := h
    injection h2 with h3
    rw [Prod.mk.injEq] at h3
    exact .inl ⟨hL, h1.symm, h3.1.symm, h3.2.symm⟩
  · right
    refine ⟨hL, ?_⟩
    simp only [Device.read, if_neg hL] at h
    cases ht : checkedAdd off dev.cursor with
    | none =>
      rw [ht] at h
      simp at h
    | some total =>
      rw [ht] at h
      simp only at h
      cases hfb : (Device.find_block ap ar dev.data (total / BLOCK_SIZE)).2 with
      | err e =>
        rw [hfb] at h
        simp at h
      | abort r => exact absurd hfb (find_block_no_abort ap ar dev.data _ r)
      | ok bytes =>
        have hbytes : bytes = BLOCK_SIZE := (find_block_ok ap ar dev.data _ bytes hfb).1
        subst hbytes
        rw [hfb] at h
        simp only at h
        cases ht2 : checkedAdd L (total % BLOCK_SIZE) with
        | none =>
          rw [ht2] at h
          simp at h
        | some tot =>
          rw [ht2] at h
          simp only at h
          obtain ⟨htot, hov⟩ := checkedAdd_inv _ _ _ ht2
          subst htot
          obtain ⟨blk, hblk, hblen⟩ := find_block_ok_blk ap ar dev.data _ _ hfb
          rw [hblk] at h
          simp only [sliceRange] at h
          have hcond : total % BLOCK_SIZE ≤
              (if L + total % BLOCK_SIZE < BLOCK_SIZE then
                L + total % BLOCK_SIZE else BLOCK_SIZE) ∧
              (if L + total % BLOCK_SIZE < BLOCK_SIZE then
                L + total % BLOCK_SIZE else BLOCK_SIZE) ≤ blk.length := by
            rw [ite_min, hblen]
            have : total % BLOCK_SIZE < BLOCK_SIZE := Nat.mod_lt _ blockSize_pos
            omega
          rw [if_pos hcond] at h
          rw [Prod.mk.injEq] at h
          obtain ⟨h1, h2⟩ := h
          injection h2 with h3
          rw [Prod.mk.injEq] at h3
          refine ⟨total, blk, rfl, hov, hfb, hblk, hblen, ?_, ?_, ?_⟩
          · rw [← h3.1, ite_min]
          · rw [← h3.2, ← h3.1, ite_min]
          · rw [← h1]

/-- Whatever happens, a `read` leaves the device either untouched or exactly
with the data produced by its `find_block` call, and the cursor unchanged. -/
theorem read_state (ap : Nat → Bool) (ar : Bool) (dev : Device) (off L : Nat) :
    (Device.read ap ar dev off L).1 = dev ∨
    ∃ row, (Device.read ap ar dev off L).1 =
      ⟨(Device.find_block ap ar dev.data row).1, dev.cursor⟩ := by
  by_cases hL : L = 0
  · left
    simp [Device.read, hL]
  · simp only [Device.read, if_neg hL]
    cases ht : checkedAdd off dev.cursor with
    | none => exact .inl rfl
    | some total =>
      right
      refine ⟨total / BLOCK_SIZE, ?_⟩
      simp only []
      split
      · split
        · rfl
        · split
          · split
            · rfl
            · rfl
          · rfl
      · rfl
      · rfl

/-- Whatever happens, a `write` leaves the device untouched, with the data
produced by `find_block`, or with the clipped range of one block
overwritten; the cursor is unchanged. -/
theorem write_state (ap : Nat → Bool) (ar : Bool) (dev : Device) (off : Nat)
    (buf : List Nat) :
    (Device.write ap ar dev off buf).1 = dev ∨
    (∃ row, (Device.write ap ar dev off buf).1 =
      ⟨(Device.find_block ap ar dev.data row).1, dev.cursor⟩) ∨
    (∃ row o e blk,
      (Device.find_block ap ar dev.data row).1[row]? = some blk ∧
      o ≤ e ∧ e ≤ blk.length ∧ e ≤ buf.length + o ∧
      (Device.write ap ar dev off buf).1 =
        ⟨(Device.find_block ap ar dev.data row).1.set row (writeRange blk o e buf),
         dev.cursor⟩) := by
  by_cases hb : buf.length = 0
  · left
    simp [Device.write, hb]
  · simp only [Device.write, if_neg hb]
    cases ht : checkedAdd off dev.cursor with
    | none => exact .inl rfl
    | some total =>
      right
      simp only []
      split
      · rename_i bytes hfb
        split
        · exact .inl ⟨total / BLOCK_SIZE, rfl⟩
        · rename_i tot ht2
          split
          · rename_i blk hgb
            obtain ⟨htot, -⟩ := checkedAdd_inv _ _ _ ht2
            subst htot
            split
            · rename_i hlt2
              split
              · rename_i hcond
                right
                exact ⟨total / BLOCK_SIZE, total % BLOCK_SIZE,
                  buf.length + total % BLOCK_SIZE, blk, hgb,
                  hcond.1, hcond.2, by omega, rfl⟩
              · exact .inl ⟨total / BLOCK_SIZE, rfl⟩
            · rename_i hge2
              split
              · rename_i hcond
                right
                exact ⟨total / BLOCK_SIZE, total % BLOCK_SIZE, bytes, blk, hgb,
                  hcond.1, hcond.2, by omega, rfl⟩
              · exact .inl ⟨total / BLOCK_SIZE, rfl⟩
          · exact .inl ⟨total / BLOCK_SIZE, rfl⟩
      · exact .inl ⟨total / BLOCK_SIZE, rfl⟩
      · exact .inl ⟨total / BLOCK_SIZE, rfl⟩

/-- No operation changes the cursor. -/
theorem step_cursor (dev : Device) (op : Op) : (step dev op).cursor = dev.cursor := by
  cases op with
  | rd off n ap ar =>
    rcases read_state ap ar dev off n with h | ⟨row, h⟩
    · rw [step, h]
    · rw [step, h]
  | wr off buf ap ar =>
    rcases write_state ap ar dev off buf with h | ⟨row, h⟩ | ⟨row, o, e, blk, -, -, -, -, h⟩
    · rw [step, h]
    · rw [step, h]
    · rw [step, h]

theorem getElem?_some_lt {α : Type} {l : List α} {i : Nat} {b : α}
    (h : l[i]? = some b) : i < l.length := by
  rcases Nat.lt_or_ge i l.length with h' | h'
  · exact h'
  · rw [List.getElem?_eq_none h'] at h
    cases h

theorem writeRange_length (blk src : List Nat) (a b : Nat)
    (hab : a ≤ b) (hb : b ≤ blk.length) (hsrc : b - a ≤ src.length) :
    (writeRange blk a b src).length = blk.length := by
  unfold writeRange
  simp only [List.length_append, List.length_take, List.length_drop]
  omega

/-- One operation never shrinks the data and never destroys a full block. -/
theorem step_mono (dev : Device) (op : Op) :
    dev.data.length ≤ (step dev op).data.length ∧
    ∀ (i : Nat) (b : List Nat), dev.data[i]? = some b → b.length = BLOCK_SIZE →
      ∃ b2, (step dev op).data[i]? = some b2 ∧ b2.length = BLOCK_SIZE := by
  cases op with
  | rd off n ap ar =>
    rcases read_state ap ar dev off n with h | ⟨row, h⟩
    · rw [step, h]
      exact ⟨Nat.le_refl _, fun i b hb hfull => ⟨b, hb, hfull⟩⟩
    · rw [step, h]
      obtain ⟨h1, h2⟩ := find_block_mono ap ar dev.data row
      exact ⟨h1, fun i b hb hfull => ⟨b, h2 i b hb hfull, hfull⟩⟩
  | wr off buf ap ar =>
    rcases write_state ap ar dev off buf with
      h | ⟨row, h⟩ | ⟨row, o, e, blk, hgb, hoe, heblk, hebuf, h⟩
    · rw [step, h]
      exact ⟨Nat.le_refl _, fun i b hb hfull => ⟨b, hb, hfull⟩⟩
    · rw [step, h]
      obtain ⟨h1, h2⟩ := find_block_mono ap ar dev.data row
      exact ⟨h1, fun i b hb hfull => ⟨b, h2 i b hb hfull, hfull⟩⟩
    · rw [step, h]
      obtain ⟨h1, h2⟩ := find_block_mono ap ar dev.data row
      constructor
      · simpa using h1
      · intro i b hb hfull
        by_cases hi : row = i
        · subst hi
          have hb2 := h2 row b hb hfull
          rw [hgb] at hb2
          injection hb2 with hbe
          subst hbe
          refine ⟨writeRange blk o e buf, ?_, ?_⟩
          · exact List.getElem?_set_self (getElem?_some_lt hgb)
          · rw [writeRange_length blk buf o e hoe heblk (by omega)]
            exact hfull
        · refine ⟨b, ?_, hfull⟩
          rw [List.getElem?_set_ne hi]
          exact h2 i b hb hfull

theorem run_append (dev : Device) (ops more : List Op) :
    run dev (ops ++ more) = run (run dev ops) more := by
  simp [run, List.foldl_append]

/-! ### Claim theorems -/

/-- C1: for every successful `find_block(row)` call: the call returns
`BLOCK_SIZE`; afterwards the block at `row` has length exactly `BLOCK_SIZE`
(zero-extended if it was shorter); and if `row ≥ len(blocks)` on entry,
exactly `row - len(blocks) + 1` new empty blocks are appended in order so
that `row` is a valid index. -/
theorem C1_ensure_block (ap : Nat → Bool) (ar : Bool) (dat : List (List Nat)) (row n : Nat)
    (h : (Device.find_block ap ar dat row).2 = .ok n) :
    n = BLOCK_SIZE ∧
    (∃ blk, (Device.find_block ap ar dat row).1[row]? = some blk ∧
      blk.length = BLOCK_SIZE) ∧
    (∀ old, dat[row]? = some old → old.length ≤ BLOCK_SIZE →
      (Device.find_block ap ar dat row).1[row]? =
        some (old ++ List.replicate (BLOCK_SIZE - old.length) 0)) ∧
    (dat.length ≤ row →
      (Device.find_block ap ar dat row).1.length = row + 1 ∧
      (Device.find_block ap ar dat row).1.take dat.length = dat ∧
      (∀ i, dat.length ≤ i → i < row →
        (Device.find_block ap ar dat row).1[i]? = some ([] : List Nat)) ∧
      (Device.find_block ap ar dat row).1[row]? =
        some (List.replicate BLOCK_SIZE 0)) := by
  obtain ⟨hn, hc⟩ := find_block_ok ap ar dat row n h
  refine ⟨hn, ?_, ?_, ?_⟩
  · exact find_block_ok_blk ap ar dat row n h
  · intro old hold holdlen
    have hlt : row < dat.length := getElem?_some_lt hold
    rcases hc with ⟨hrow, -⟩ | ⟨-, blk, hblk, ⟨hfull, hd⟩ | ⟨-, hd⟩⟩
    · omega
    · rw [hold] at hblk
      injection hblk with hble
      subst hble
      rw [hd, hold, hfull, Nat.sub_self, List.replicate_zero, List.append_nil]
    · rw [hold] at hblk
      injection hblk with hble
      subst hble
      rw [hd, vecResize_eq_append old BLOCK_SIZE 0 holdlen]
      exact List.getElem?_set_self (by simpa using hlt)
  · intro hrow
    rcases hc with ⟨-, hd⟩ | ⟨hlt, -⟩
    · have hset := List.set_append_right (s := dat)
        (t := List.replicate (row + 1 - dat.length) ([] : List Nat)) row
        (List.replicate BLOCK_SIZE 0) hrow
      refine ⟨?_, ?_, ?_, ?_⟩
      · rw [hd]
        simp
        omega
      · rw [hd, hset, List.take_left' rfl]
      · intro i hi1 hi2
        rw [hd, hset, List.getElem?_append_right hi1,
          List.getElem?_set_ne (by omega)]
        exact List.getElem?_replicate_of_lt (by omega)
      · rw [hd]
        exact List.getElem?_set_self (by simp; omega)
    · omega

/-- Witness for C1: fresh store, `row = 0`, allocation succeeding. -/
theorem C1_ensure_block_witness :
    BLOCK_SIZE = BLOCK_SIZE ∧
    (∃ blk, (Device.find_block (fun _ => true) true [] 0).1[0]? = some blk ∧
      blk.length = BLOCK_SIZE) ∧
    (∀ old, ([] : List (List Nat))[0]? = some old → old.length ≤ BLOCK_SIZE →
      (Device.find_block (fun _ => true) true [] 0).1[0]? =
        some (old ++ List.replicate (BLOCK_SIZE - old.length) 0)) ∧
    ((0 : Nat) ≤ 0 →
      (Device.find_block (fun _ => true) true [] 0).1.length = 0 + 1 ∧
      (Device.find_block (fun _ => true) true [] 0).1.take 0 = [] ∧
      (∀ i, (0 : Nat) ≤ i → i < 0 →
        (Device.find_block (fun _ => true) true [] 0).1[i]? = some ([] : List Nat)) ∧
      (Device.find_block (fun _ => true) true [] 0).1[0]? =
        some (List.replicate BLOCK_SIZE 0)) :=
  C1_ensure_block (fun _ => true) true [] 0 BLOCK_SIZE (by decide)

/-- Safety: `read` can never take its out-of-bounds abort branch. -/
theorem read_no_oob (ap : Nat → Bool) (ar : Bool) (dev : Device) (off L : Nat) :
    (Device.read ap ar dev off L).2 ≠ .abort .oob := by
  by_cases hL : L = 0
  · simp [Device.read, hL]
  · simp only [Device.read, if_neg hL]
    cases ht : checkedAdd off dev.cursor with
    | none =>
      intro hx
      injection hx with hr
      cases hr
    | some total =>
      simp only []
      split
      · rename_i bytes hfb
        have hbytes : bytes = BLOCK_SIZE := (find_block_ok ap ar dev.data _ bytes hfb).1
        subst hbytes
        obtain ⟨blk0, hblk0, hblen0⟩ := find_block_ok_blk ap ar dev.data _ _ hfb
        split
        · intro hx
          injection hx with hr
          cases hr
        · rename_i tot ht2
          obtain ⟨htot, -⟩ := checkedAdd_inv _ _ _ ht2
          subst htot
          split
          · rename_i blk hgb
            rw [hblk0] at hgb
            injection hgb with hge
            subst hge
            split
            · simp
            · rename_i hsr
              exfalso
              unfold sliceRange at hsr
              rw [if_pos ?_] at hsr
              · cases hsr
              · constructor
                · have : total % BLOCK_SIZE < BLOCK_SIZE :=
                    Nat.mod_lt _ blockSize_pos
                  split
                  · omega
                  · omega
                · rw [hblen0]
                  split
                  · omega
                  · omega
          · rename_i hgb
            rw [hblk0] at hgb
            cases hgb
      · simp
      · rename_i r hfb
        exact absurd hfb (find_block_no_abort ap ar dev.data _ r)

/-- Safety: `write` can never take its out-of-bounds abort branch. -/
theorem write_no_oob (ap : Nat → Bool) (ar : Bool) (dev : Device) (off : Nat)
    (buf : List Nat) :
    (Device.write ap ar dev off buf).2 ≠ .abort .oob := by
  by_cases hb : buf.length = 0
  · simp [Device.write, hb]
  · simp only [Device.write, if_neg hb]
    cases ht : checkedAdd off dev.cursor with
    | none =>
      intro hx
      injection hx with hr
      cases hr
    | some total =>
      simp only []
      split
      · rename_i bytes hfb
        have hbytes : bytes = BLOCK_SIZE := (find_block_ok ap ar dev.data _ bytes hfb).1
        subst hbytes
        obtain ⟨blk0, hblk0, hblen0⟩ := find_block_ok_blk ap ar dev.data _ _ hfb
        split
        · intro hx
          injection hx with hr
          cases hr
        · rename_i tot ht2
          obtain ⟨htot, -⟩ := checkedAdd_inv _ _ _ ht2
          subst htot
          split
          · rename_i blk hgb
            rw [hblk0] at hgb
            injection hgb with hge
            subst hge
            rw [if_pos ?_]
            · simp
            · constructor
              · have : total % BLOCK_SIZE < BLOCK_SIZE :=
                  Nat.mod_lt _ blockSize_pos
                split
                · omega
                · omega
              · rw [hblen0]
                split
                · omega
                · omega
          · rename_i hgb
            rw [hblk0] at hgb
            cases hgb
      · simp
      · rename_i r hfb
        exact absurd hfb (find_block_no_abort ap ar dev.data _ r)

/-- C7: a read with a zero-capacity buffer and a write with an empty buffer
return 0 successfully and leave the block sequence completely unchanged
(no growth, no materialization). -/
theorem C7_zero_length (ap : Nat → Bool) (ar : Bool) (dev : Device) (off : Nat) :
    Device.read ap ar dev off 0 = (dev, .ok (0, [])) ∧
    Device.write ap ar dev off [] = (dev, .ok 0) := by
  constructor
  · simp [Device.read]
  · simp [Device.write]

/-- C10: whenever `find_block(row)` succeeds, `row` is a valid index and the
block there has length exactly `BLOCK_SIZE`; the in-block offset is always
below `BLOCK_SIZE`; consequently the slice accesses of `read` and `write`
are always in bounds — neither operation can reach the indexing-error
branch. -/
theorem C10_slice_in_bounds (ap : Nat → Bool) (ar : Bool) (dev : Device)
    (off L row n : Nat) (buf : List Nat)
    (h : (Device.find_block ap ar dev.data row).2 = .ok n) :
    (row < (Device.find_block ap ar dev.data row).1.length ∧
      ∃ blk, (Device.find_block ap ar dev.data row).1[row]? = some blk ∧
        blk.length = BLOCK_SIZE) ∧
    (off + dev.cursor) % BLOCK_SIZE < BLOCK_SIZE ∧
    (Device.read ap ar dev off L).2 ≠ .abort .oob ∧
    (Device.write ap ar dev off buf).2 ≠ .abort .oob := by
  obtain ⟨blk, hblk, hblen⟩ := find_block_ok_blk ap ar dev.data row n h
  exact ⟨⟨getElem?_some_lt hblk, blk, hblk, hblen⟩,
    Nat.mod_lt _ blockSize_pos,
    read_no_oob ap ar dev off L,
    write_no_oob ap ar dev off buf⟩

/-- Witness for C10: fresh store, `row = 0`, an 8-byte access at offset 0. -/
theorem C10_slice_in_bounds_witness :
    ((0 : Nat) < (Device.find_block (fun _ => true) true Device.try_new.data 0).1.length ∧
      ∃ blk, (Device.find_block (fun _ => true) true Device.try_new.data 0).1[0]? =
        some blk ∧ blk.length = BLOCK_SIZE) ∧
    (0 + Device.try_new.cursor) % BLOCK_SIZE < BLOCK_SIZE ∧
    (Device.read (fun _ => true) true Device.try_new 0 8).2 ≠ .abort .oob ∧
    (Device.write (fun _ => true) true Device.try_new 0 [1, 2, 3, 4, 5, 6, 7, 8]).2 ≠
      .abort .oob :=
  C10_slice_in_bounds (fun _ => true) true Device.try_new 0 8 0 BLOCK_SIZE
    [1, 2, 3, 4, 5, 6, 7, 8] (by decide)

/-- C8: when `find_block` fails with out-of-memory, the `ENOMEM` error is
returned and the store keeps every block appended before the failing step
(the original blocks are an intact prefix, the appended blocks are present
and empty); a subsequent call with the same `row` and a succeeding
allocator performs the remaining growth and succeeds. -/
theorem C8_oom_partial (ap : Nat → Bool) (ar : Bool) (dat dat' : List (List Nat))
    (row : Nat)
    (h : Device.find_block ap ar dat row = (dat', .err .ENOMEM)) :
    dat.length ≤ dat'.length ∧
    dat'.take dat.length = dat ∧
    (∀ i, dat.length ≤ i → i < dat'.length → dat'[i]? = some ([] : List Nat)) ∧
    (Device.find_block (fun _ => true) true dat' row).2 = .ok BLOCK_SIZE ∧
    row < (Device.find_block (fun _ => true) true dat' row).1.length := by
  have h1 : (Device.find_block ap ar dat row).1 = dat' := congrArg Prod.fst h
  have h2 : (Device.find_block ap ar dat row).2 = .err .ENOMEM := congrArg Prod.snd h
  obtain ⟨m, -, -, hc⟩ := find_block_cases ap ar dat row
  obtain ⟨ht1, ht2⟩ := find_block_total dat' row
  refine ?_
  rcases hc with ⟨hd, herr | ⟨blk, hblk, hlen, hok⟩⟩ | ⟨blk, hblk, hlen, hd, hok⟩
  · rw [h1] at hd
    subst hd
    refine ⟨by simp, List.take_left' rfl, ?_, ht1, ht2⟩
    intro i hi1 hi2
    rw [List.getElem?_append_right hi1]
    refine List.getElem?_replicate_of_lt ?_
    simp at hi2
    omega
  · rw [h2] at hok
    cases hok
  · rw [h2] at hok
    cases hok

/-- Witness for C8: fresh store, `row = 2`, the second push fails; one empty
block is left behind and the retry succeeds. -/
theorem C8_oom_partial_witness :
    List.length ([] : List (List Nat)) ≤ List.length [([] : List Nat)] ∧
    List.take (List.length ([] : List (List Nat))) [([] : List Nat)] = [] ∧
    (∀ i, List.length ([] : List (List Nat)) ≤ i → i < List.length [([] : List Nat)] →
      [([] : List Nat)][i]? = some ([] : List Nat)) ∧
    (Device.find_block (fun _ => true) true [[]] 2).2 = .ok BLOCK_SIZE ∧
    2 < (Device.find_block (fun _ => true) true [[]] 2).1.length :=
  C8_oom_partial (fun k => decide (k < 1)) true [] [[]] 2 (by decide)

/-- Any sequence of operations never shrinks the data and never destroys a
full block. -/
theorem run_mono (more : List Op) :
    ∀ dev : Device,
      dev.data.length ≤ (run dev more).data.length ∧
      ∀ (i : Nat) (b : List Nat), dev.data[i]? = some b → b.length = BLOCK_SIZE →
        ∃ b2, (run dev more).data[i]? = some b2 ∧ b2.length = BLOCK_SIZE := by
  induction more with
  | nil =>
    intro dev
    exact ⟨Nat.le_refl _, fun i b hb hf => ⟨b, hb, hf⟩⟩
  | cons op ops ih =>
    intro dev
    obtain ⟨s1, s2⟩ := step_mono dev op
    obtain ⟨r1, r2⟩ := ih (step dev op)
    have hrun : run dev (op :: ops) = run (step dev op) ops := rfl
    rw [hrun]
    constructor
    · exact Nat.le_trans s1 r1
    · intro i b hb hf
      obtain ⟨b2, hb2, hf2⟩ := s2 i b hb hf
      exact r2 i b2 hb2 hf2

/-- C4: over any sequence of reads and writes (including failing ones),
`len(blocks)` is non-decreasing, and once the block at any index has length
`BLOCK_SIZE` it keeps length exactly `BLOCK_SIZE` in every later state. -/
theorem C4_growth_monotonic (dev : Device) (ops more : List Op) :
    (run dev ops).data.length ≤ (run dev (ops ++ more)).data.length ∧
    ∀ (i : Nat) (b : List Nat), (run dev ops).data[i]? = some b →
      b.length = BLOCK_SIZE →
      ∃ b2, (run dev (ops ++ more)).data[i]? = some b2 ∧
        b2.length = BLOCK_SIZE := by
  rw [run_append]
  exact run_mono more (run dev ops)

/-- Witness for C4: a store holding one full block, after one more read. -/
theorem C4_growth_monotonic_witness :
    (run ⟨[List.replicate BLOCK_SIZE 0], 0⟩ []).data.length ≤
      (run ⟨[List.replicate BLOCK_SIZE 0], 0⟩
        ([] ++ [Op.rd 0 1 (fun _ => true) true])).data.length ∧
    ∃ b2, (run ⟨[List.replicate BLOCK_SIZE 0], 0⟩
        ([] ++ [Op.rd 0 1 (fun _ => true) true])).data[0]? = some b2 ∧
      b2.length = BLOCK_SIZE :=
  ⟨(C4_growth_monotonic ⟨[List.replicate BLOCK_SIZE 0], 0⟩ []
      [Op.rd 0 1 (fun _ => true) true]).1,
   (C4_growth_monotonic ⟨[List.replicate BLOCK_SIZE 0], 0⟩ []
      [Op.rd 0 1 (fun _ => true) true]).2 0 (List.replicate BLOCK_SIZE 0) rfl
      (by simp)⟩

/-- Evaluate `write` once the `find_block` outcome is known. -/
theorem write_eval (ap : Nat → Bool) (ar : Bool) (dev : Device) (off : Nat)
    (buf : List Nat) (total : Nat) (dat1 : List (List Nat)) (blk : List Nat)
    (hb : ¬ buf.length = 0)
    (ht : checkedAdd off dev.cursor = some total)
    (hfb : Device.find_block ap ar dev.data (total / BLOCK_SIZE) = (dat1, .ok BLOCK_SIZE))
    (hblk : dat1[total / BLOCK_SIZE]? = some blk)
    (hblen : blk.length = BLOCK_SIZE)
    (hov : buf.length + total % BLOCK_SIZE < LIMIT) :
    Device.write ap ar dev off buf =
      (⟨dat1.set (total / BLOCK_SIZE)
          (writeRange blk (total % BLOCK_SIZE)
            (min (buf.length + total % BLOCK_SIZE) BLOCK_SIZE) buf), dev.cursor⟩,
       .ok (min (buf.length + total % BLOCK_SIZE) BLOCK_SIZE - total % BLOCK_SIZE)) := by
  have homod : total % BLOCK_SIZE < BLOCK_SIZE := Nat.mod_lt _ blockSize_pos
  have he : (if buf.length + total % BLOCK_SIZE < BLOCK_SIZE then
      buf.length + total % BLOCK_SIZE else BLOCK_SIZE) =
      min (buf.length + total % BLOCK_SIZE) BLOCK_SIZE := ite_min _ _
  have hcond : total % BLOCK_SIZE ≤ min (buf.length + total % BLOCK_SIZE) BLOCK_SIZE ∧
      min (buf.length + total % BLOCK_SIZE) BLOCK_SIZE ≤ blk.length := by
    rw [hblen]
    omega
  simp only [Device.write, if_neg hb, ht, hfb,
    checkedAdd_some buf.length (total % BLOCK_SIZE) hov, hblk, he, if_pos hcond]

/-- Evaluate `read` once the `find_block` outcome is known. -/
theorem read_eval (ap : Nat → Bool) (ar : Bool) (dev : Device) (off n total : Nat)
    (dat1 : List (List Nat)) (blk : List Nat)
    (hn : ¬ n = 0)
    (ht : checkedAdd off dev.cursor = some total)
    (hfb : Device.find_block ap ar dev.data (total / BLOCK_SIZE) = (dat1, .ok BLOCK_SIZE))
    (hblk : dat1[total / BLOCK_SIZE]? = some blk)
    (hblen : blk.length = BLOCK_SIZE)
    (hov : n + total % BLOCK_SIZE < LIMIT) :
    Device.read ap ar dev off n =
      (⟨dat1, dev.cursor⟩,
       .ok (min (n + total % BLOCK_SIZE) BLOCK_SIZE - total % BLOCK_SIZE,
        (blk.drop (total % BLOCK_SIZE)).take
          (min (n + total % BLOCK_SIZE) BLOCK_SIZE - total % BLOCK_SIZE))) := by
  have homod : total % BLOCK_SIZE < BLOCK_SIZE := Nat.mod_lt _ blockSize_pos
  have he : (if n + total % BLOCK_SIZE < BLOCK_SIZE then
      n + total % BLOCK_SIZE else BLOCK_SIZE) =
      min (n + total % BLOCK_SIZE) BLOCK_SIZE := ite_min _ _
  have hcond : total % BLOCK_SIZE ≤ min (n + total % BLOCK_SIZE) BLOCK_SIZE ∧
      min (n + total % BLOCK_SIZE) BLOCK_SIZE ≤ blk.length := by
    rw [hblen]
    omega
  simp only [Device.read, if_neg hn, ht, hfb,
    checkedAdd_some n (total % BLOCK_SIZE) hov, hblk, he, sliceRange, if_pos hcond]

/-- With an always-succeeding allocator and `row ≥ len`, `find_block`
appends the missing rows and materializes `row`. -/
theorem find_block_grow_total (dat : List (List Nat)) (row : Nat)
    (hrow : dat.length ≤ row) :
    Device.find_block (fun _ => true) true dat row =
      ((dat ++ List.replicate (row + 1 - dat.length) []).set row
        (List.replicate BLOCK_SIZE 0), .ok BLOCK_SIZE) := by
  have h2 := (find_block_total dat row).1
  obtain ⟨-, hc⟩ := find_block_ok _ _ dat row _ h2
  rcases hc with ⟨-, hd⟩ | ⟨hlt, -⟩
  · calc Device.find_block (fun _ => true) true dat row
        = ((Device.find_block (fun _ => true) true dat row).1,
           (Device.find_block (fun _ => true) true dat row).2) := rfl
      _ = _ := by rw [hd, h2]
  · omega

/-- Dropping the prefix of an overwritten block exposes the written bytes
followed by the old tail. -/
theorem writeRange_drop (blk src : List Nat) (a b : Nat)
    (hab : a ≤ b) (hb : b ≤ blk.length) :
    (writeRange blk a b src).drop a = src.take (b - a) ++ blk.drop b := by
  unfold writeRange
  rw [List.append_assoc]
  exact List.drop_left' (by rw [List.length_take]; omega)

/-- The overwritten byte range reads back as the written bytes. -/
theorem writeRange_slice (blk src : List Nat) (a b : Nat)
    (hab : a ≤ b) (hb : b ≤ blk.length) (hsrc : b - a ≤ src.length) :
    ((writeRange blk a b src).drop a).take (b - a) = src.take (b - a) := by
  rw [writeRange_drop blk src a b hab hb]
  rw [List.take_append_of_le_length (by rw [List.length_take]; omega)]
  rw [List.take_take]
  rw [Nat.min_self]

/-- First write of the spec scenario: 8 bytes at offset 4090 on a fresh
store clip to 6 bytes into block 0. -/
theorem scenario_write1 :
    Device.write (fun _ => true) true ⟨[], 0⟩ 4090 [1, 2, 3, 4, 5, 6, 7, 8] =
      (⟨[writeRange (List.replicate BLOCK_SIZE 0) 4090 4096 [1, 2, 3, 4, 5, 6, 7, 8]],
        0⟩, .ok 6) := by
  have hfb : Device.find_block (fun _ => true) true ([] : List (List Nat)) 0 =
      ([List.replicate BLOCK_SIZE 0], .ok BLOCK_SIZE) := by
    rw [find_block_grow_total [] 0 (by simp)]
    rfl
  have h := write_eval (fun _ => true) true ⟨[], 0⟩ 4090 [1, 2, 3, 4, 5, 6, 7, 8] 4090
    [List.replicate BLOCK_SIZE 0] (List.replicate BLOCK_SIZE 0)
    (by decide) (by decide) hfb rfl (by simp) (by decide)
  rw [h]
  rfl

/-- Second write of the spec scenario: 2 bytes at offset 4096 grow the store
to block 1 and transfer both bytes. -/
theorem scenario_write2 :
    Device.write (fun _ => true) true
      (⟨[writeRange (List.replicate BLOCK_SIZE 0) 4090 4096 [1, 2, 3, 4, 5, 6, 7, 8]],
        0⟩ : Device) 4096 [7, 8] =
      (⟨[writeRange (List.replicate BLOCK_SIZE 0) 4090 4096 [1, 2, 3, 4, 5, 6, 7, 8],
         writeRange (List.replicate BLOCK_SIZE 0) 0 2 [7, 8]], 0⟩, .ok 2) := by
  have hfb : Device.find_block (fun _ => true) true
      [writeRange (List.replicate BLOCK_SIZE 0) 4090 4096 [1, 2, 3, 4, 5, 6, 7, 8]] 1 =
      ([writeRange (List.replicate BLOCK_SIZE 0) 4090 4096 [1, 2, 3, 4, 5, 6, 7, 8],
        List.replicate BLOCK_SIZE 0], .ok BLOCK_SIZE) := by
    rw [find_block_grow_total _ 1 (by simp)]
    rfl
  have h := write_eval (fun _ => true) true
    (⟨[writeRange (List.replicate BLOCK_SIZE 0) 4090 4096 [1, 2, 3, 4, 5, 6, 7, 8]],
      0⟩ : Device) 4096 [7, 8] 4096
    [writeRange (List.replicate BLOCK_SIZE 0) 4090 4096 [1, 2, 3, 4, 5, 6, 7, 8],
     List.replicate BLOCK_SIZE 0] (List.replicate BLOCK_SIZE 0)
    (by decide) (by decide) hfb rfl (by simp) (by decide)
  rw [h]
  rfl

/-- C2: a successful read or write of a non-empty buffer of length L landing
at in-block offset `o` transfers and returns `min L (BLOCK_SIZE - o)` bytes;
in particular the spec's concrete scenario holds: on a fresh store, writing
8 bytes at offset 4090 returns 6 and fills block 0's last 6 bytes, and a
subsequent 2-byte write at offset 4096 grows the store to 2 blocks and
returns 2. -/
theorem C2_boundary_clipping (ap : Nat → Bool) (ar : Bool) (dev dev1 dev2 : Device)
    (off L n m : Nat) (s buf : List Nat)
    (hL : L ≠ 0) (hbuf : buf ≠ [])
    (hr : Device.read ap ar dev off L = (dev1, .ok (n, s)))
    (hw : Device.write ap ar dev off buf = (dev2, .ok m)) :
    (n = min L (BLOCK_SIZE - (off + dev.cursor) % BLOCK_SIZE) ∧ s.length = n) ∧
    m = min buf.length (BLOCK_SIZE - (off + dev.cursor) % BLOCK_SIZE) ∧
    ((Device.write (fun _ => true) true ⟨[], 0⟩ 4090 [1, 2, 3, 4, 5, 6, 7, 8]).2 =
      .ok 6 ∧
     ((Device.write (fun _ => true) true ⟨[], 0⟩ 4090
        [1, 2, 3, 4, 5, 6, 7, 8]).1.data[0]?.map (fun b => b.drop 4090)) =
      some [1, 2, 3, 4, 5, 6] ∧
     (Device.write (fun _ => true) true
        (Device.write (fun _ => true) true ⟨[], 0⟩ 4090
          [1, 2, 3, 4, 5, 6, 7, 8]).1 4096 [7, 8]).2 = .ok 2 ∧
     (Device.write (fun _ => true) true
        (Device.write (fun _ => true) true ⟨[], 0⟩ 4090
          [1, 2, 3, 4, 5, 6, 7, 8]).1 4096 [7, 8]).1.data.length = 2 ∧
     ((Device.write (fun _ => true) true
        (Device.write (fun _ => true) true ⟨[], 0⟩ 4090
          [1, 2, 3, 4, 5, 6, 7, 8]).1 4096 [7, 8]).1.data[1]?.map
        (fun b => b.take 2)) = some [7, 8]) := by
  have homod : (off + dev.cursor) % BLOCK_SIZE < BLOCK_SIZE :=
    Nat.mod_lt _ blockSize_pos
  refine ⟨?_, ?_, ?_⟩
  · rcases read_ok_inv ap ar dev dev1 off L n s hr with
      ⟨hL0, -, -, -⟩ | ⟨-, total, blk, ht, hov, -, -, hblen, hn, hs, -⟩
    · exact absurd hL0 hL
    · obtain ⟨htot, -⟩ := checkedAdd_inv _ _ _ ht
      subst htot
      constructor
      · omega
      · rw [hs, List.length_take, List.length_drop, hblen]
        omega
  · have hbuf' : buf.length ≠ 0 := fun h0 => hbuf (List.length_eq_zero.mp h0)
    rcases write_ok_inv ap ar dev dev2 off m buf hw with
      ⟨hb0, -, -⟩ | ⟨-, total, blk, ht, hov, -, -, hblen, hm, -⟩
    · exact absurd hb0 hbuf'
    · obtain ⟨htot, -⟩ := checkedAdd_inv _ _ _ ht
      subst htot
      omega
  · have hdrop : (writeRange (List.replicate BLOCK_SIZE 0) 4090 4096
        [1, 2, 3, 4, 5, 6, 7, 8]).drop 4090 = [1, 2, 3, 4, 5, 6] := by
      rw [writeRange_drop _ _ 4090 4096 (by decide)
        (by rw [List.length_replicate]; decide)]
      rw [List.drop_replicate]
      have h0 : BLOCK_SIZE - 4096 = 0 := by decide
      rw [h0, List.replicate_zero, List.append_nil]
      rfl
    have htake : (writeRange (List.replicate BLOCK_SIZE 0) 0 2 [7, 8]).take 2 =
        [7, 8] := by
      have h := writeRange_slice (List.replicate BLOCK_SIZE 0) [7, 8] 0 2
        (by decide) (by rw [List.length_replicate]; decide) (by decide)
      rw [List.drop_zero] at h
      exact h
    simp only [scenario_write1, scenario_write2]
    refine ⟨by trivial, ?_, by trivial, by simp, ?_⟩
    · simp only [List.getElem?_cons_zero, Option.map_some']
      rw [hdrop]
    · simp only [List.getElem?_cons_succ, List.getElem?_cons_zero, Option.map_some']
      rw [htake]

/-- Witness for C2: 1-byte read and write at offset 0 of a store with a
materialized block 0. -/
theorem C2_boundary_clipping_witness :
    1 = min 1 (BLOCK_SIZE -
      (0 + (⟨[List.replicate BLOCK_SIZE 0], 0⟩ : Device).cursor) % BLOCK_SIZE) ∧
    ([0] : List Nat).length = 1 := by
  have hfbm := find_block_materialized (fun _ => true) true
    [List.replicate BLOCK_SIZE 0] 0 (List.replicate BLOCK_SIZE 0) rfl (by simp)
  have h1 := read_eval (fun _ => true) true ⟨[List.replicate BLOCK_SIZE 0], 0⟩ 0 1 0
    [List.replicate BLOCK_SIZE 0] (List.replicate BLOCK_SIZE 0)
    (by decide) (by decide) hfbm rfl (by simp) (by decide)
  have hr : Device.read (fun _ => true) true ⟨[List.replicate BLOCK_SIZE 0], 0⟩ 0 1 =
      (⟨[List.replicate BLOCK_SIZE 0], 0⟩, .ok (1, [0])) := by
    rw [h1]
    rfl
  have h2 := write_eval (fun _ => true) true ⟨[List.replicate BLOCK_SIZE 0], 0⟩ 0 [5] 0
    [List.replicate BLOCK_SIZE 0] (List.replicate BLOCK_SIZE 0)
    (by decide) (by decide) hfbm rfl (by simp) (by decide)
  have hw : Device.write (fun _ => true) true ⟨[List.replicate BLOCK_SIZE 0], 0⟩ 0 [5] =
      (⟨[writeRange (List.replicate BLOCK_SIZE 0) 0 1 [5]], 0⟩, .ok 1) := by
    rw [h2]
    rfl
  exact (C2_boundary_clipping (fun _ => true) true ⟨[List.replicate BLOCK_SIZE 0], 0⟩
    ⟨[List.replicate BLOCK_SIZE 0], 0⟩
    ⟨[writeRange (List.replicate BLOCK_SIZE 0) 0 1 [5]], 0⟩
    0 1 1 1 [0] [5] (by decide) (by simp) hr hw).1

/-- C3: writing bytes `B` at offset `X` without crossing a block boundary,
then reading the same offset with a buffer of length `|B|`, returns exactly
`B` (and leaves the store as the write left it). -/
theorem C3_round_trip (ap ap2 : Nat → Bool) (ar ar2 : Bool) (dev dev' : Device)
    (X n : Nat) (B : List Nat)
    (hfit : (X + dev.cursor) % BLOCK_SIZE + B.length ≤ BLOCK_SIZE)
    (hw : Device.write ap ar dev X B = (dev', .ok n)) :
    Device.read ap2 ar2 dev' X B.length = (dev', .ok (B.length, B)) := by
  have hBSL : BLOCK_SIZE < LIMIT := by decide
  rcases write_ok_inv ap ar dev dev' X n B hw with
    ⟨hb0, hdev', -⟩ | ⟨hbne, total, blk, ht, hov, hfb, hblk, hblen, hn, hdev'⟩
  · have hBnil : B = [] := List.length_eq_zero.mp hb0
    subst hBnil
    subst hdev'
    simp [Device.read]
  · obtain ⟨htot, hlim⟩ := checkedAdd_inv _ _ _ ht
    have homod : total % BLOCK_SIZE < BLOCK_SIZE := Nat.mod_lt _ blockSize_pos
    have hfit' : total % BLOCK_SIZE + B.length ≤ BLOCK_SIZE := by
      rw [htot]
      exact hfit
    have he' : min (B.length + total % BLOCK_SIZE) BLOCK_SIZE =
        B.length + total % BLOCK_SIZE := by omega
    subst hdev'
    rw [he'] at hn ⊢
    have hrowlt : total / BLOCK_SIZE <
        (Device.find_block ap ar dev.data (total / BLOCK_SIZE)).1.length :=
      getElem?_some_lt hblk
    have hwrlen : (writeRange blk (total % BLOCK_SIZE)
        (B.length + total % BLOCK_SIZE) B).length = BLOCK_SIZE := by
      rw [writeRange_length blk B (total % BLOCK_SIZE)
        (B.length + total % BLOCK_SIZE) (by omega) (by omega) (by omega)]
      exact hblen
    have hblk2 : ((Device.find_block ap ar dev.data (total / BLOCK_SIZE)).1.set
        (total / BLOCK_SIZE)
        (writeRange blk (total % BLOCK_SIZE) (B.length + total % BLOCK_SIZE) B))[
          total / BLOCK_SIZE]? =
        some (writeRange blk (total % BLOCK_SIZE)
          (B.length + total % BLOCK_SIZE) B) :=
      List.getElem?_set_self hrowlt
  -- the freshly written block is materialized, so the read is a pure lookup
    have hfb2 := find_block_materialized ap2 ar2
      ((Device.find_block ap ar dev.data (total / BLOCK_SIZE)).1.set
        (total / BLOCK_SIZE)
        (writeRange blk (total % BLOCK_SIZE) (B.length + total % BLOCK_SIZE) B))
      (total / BLOCK_SIZE)
      (writeRange blk (total % BLOCK_SIZE) (B.length + total % BLOCK_SIZE) B)
      hblk2 hwrlen
    have h := read_eval ap2 ar2
      (⟨(Device.find_block ap ar dev.data (total / BLOCK_SIZE)).1.set
          (total / BLOCK_SIZE)
          (writeRange blk (total % BLOCK_SIZE) (B.length + total % BLOCK_SIZE) B),
        dev.cursor⟩ : Device)
      X B.length total
      ((Device.find_block ap ar dev.data (total / BLOCK_SIZE)).1.set
        (total / BLOCK_SIZE)
        (writeRange blk (total % BLOCK_SIZE) (B.length + total % BLOCK_SIZE) B))
      (writeRange blk (total % BLOCK_SIZE) (B.length + total % BLOCK_SIZE) B)
      hbne ht hfb2 hblk2 hwrlen (by omega)
    rw [h, he']
    have hcount : B.length + total % BLOCK_SIZE - total % BLOCK_SIZE = B.length := by
      omega
    rw [hcount]
    have hslice := writeRange_slice blk B (total % BLOCK_SIZE)
      (B.length + total % BLOCK_SIZE) (by omega) (by omega) (by omega)
    rw [hcount] at hslice
    rw [hslice, List.take_length]

/-- Witness for C3: the 1-byte value 5 written at offset 0 reads back. -/
theorem C3_round_trip_witness :
    Device.read (fun _ => true) true
      (⟨[writeRange (List.replicate BLOCK_SIZE 0) 0 1 [5]], 0⟩ : Device) 0 1 =
    (⟨[writeRange (List.replicate BLOCK_SIZE 0) 0 1 [5]], 0⟩, .ok (1, [5])) := by
  have hfbm := find_block_materialized (fun _ => true) true
    [List.replicate BLOCK_SIZE 0] 0 (List.replicate BLOCK_SIZE 0) rfl (by simp)
  have h2 := write_eval (fun _ => true) true ⟨[List.replicate BLOCK_SIZE 0], 0⟩ 0 [5] 0
    [List.replicate BLOCK_SIZE 0] (List.replicate BLOCK_SIZE 0)
    (by decide) (by decide) hfbm rfl (by simp) (by decide)
  have hw : Device.write (fun _ => true) true ⟨[List.replicate BLOCK_SIZE 0], 0⟩ 0 [5] =
      (⟨[writeRange (List.replicate BLOCK_SIZE 0) 0 1 [5]], 0⟩, .ok 1) := by
    rw [h2]
    rfl
  exact C3_round_trip (fun _ => true) (fun _ => true) true true
    ⟨[List.replicate BLOCK_SIZE 0], 0⟩
    ⟨[writeRange (List.replicate BLOCK_SIZE 0) 0 1 [5]], 0⟩
    0 1 [5] (by decide) hw

/-- C6: a read whose target block is materialized but all zeros (as produced
by materialization) returns zero bytes for the entire transferred range and
leaves the store unchanged. -/
theorem C6_lazy_zero_fill (ap : Nat → Bool) (ar : Bool) (dev : Device) (off L : Nat)
    (hov1 : off + dev.cursor < LIMIT)
    (hov2 : L + (off + dev.cursor) % BLOCK_SIZE < LIMIT)
    (hblk : dev.data[(off + dev.cursor) / BLOCK_SIZE]? =
      some (List.replicate BLOCK_SIZE 0)) :
    Device.read ap ar dev off L =
      (dev, .ok (min L (BLOCK_SIZE - (off + dev.cursor) % BLOCK_SIZE),
        List.replicate (min L (BLOCK_SIZE - (off + dev.cursor) % BLOCK_SIZE)) 0)) := by
  have ht : checkedAdd off dev.cursor = some (off + dev.cursor) :=
    checkedAdd_some _ _ hov1
  have homod : (off + dev.cursor) % BLOCK_SIZE < BLOCK_SIZE :=
    Nat.mod_lt _ blockSize_pos
  have h := read_materialized ap ar dev off L (off + dev.cursor)
    (List.replicate BLOCK_SIZE 0) ht hblk (by simp) hov2
  rw [h]
  have hmin : min (L + (off + dev.cursor) % BLOCK_SIZE) BLOCK_SIZE -
      (off + dev.cursor) % BLOCK_SIZE =
      min L (BLOCK_SIZE - (off + dev.cursor) % BLOCK_SIZE) := by omega
  rw [hmin, List.drop_replicate, List.take_replicate]
  have hmm : min (min L (BLOCK_SIZE - (off + dev.cursor) % BLOCK_SIZE))
      (BLOCK_SIZE - (off + dev.cursor) % BLOCK_SIZE) =
      min L (BLOCK_SIZE - (off + dev.cursor) % BLOCK_SIZE) := by omega
  rw [hmm]

/-- Witness for C6: a 3-byte read at offset 5 of a materialized all-zero
block returns three zero bytes. -/
theorem C6_lazy_zero_fill_witness :
    Device.read (fun _ => true) true (⟨[List.replicate BLOCK_SIZE 0], 0⟩ : Device) 5 3 =
      (⟨[List.replicate BLOCK_SIZE 0], 0⟩, .ok (3, List.replicate 3 0)) :=
  C6_lazy_zero_fill (fun _ => true) true ⟨[List.replicate BLOCK_SIZE 0], 0⟩ 5 3
    (by decide) (by decide) rfl

/-- C9: the cursor is never modified — construction sets it to 0 and
`read`/`write` only read it — so in every reachable state the cursor is 0
and the effective total offset of every operation equals the caller's
offset. -/
theorem C9_cursor_immutable (d : Device) (op : Op) (h : Reachable d) :
    d.cursor = 0 ∧ (step d op).cursor = d.cursor ∧
    ∀ off, off < LIMIT → checkedAdd off d.cursor = some off := by
  have hz : d.cursor = 0 := by
    induction h with
    | init => rfl
    | more d' op' h' ih =>
      rw [step_cursor d' op']
      exact ih
  refine ⟨hz, step_cursor d op, fun off hoff => ?_⟩
  rw [hz]
  have h0 := checkedAdd_some off 0 (by omega)
  simpa using h0

/-- Witness for C9: the fresh device, one trivial read. -/
theorem C9_cursor_immutable_witness :
    Device.try_new.cursor = 0 ∧
    (step Device.try_new (Op.rd 0 0 (fun _ => true) true)).cursor =
      Device.try_new.cursor ∧
    checkedAdd 7 Device.try_new.cursor = some 7 := by
  have h := C9_cursor_immutable Device.try_new (Op.rd 0 0 (fun _ => true) true)
    Reachable.init
  exact ⟨h.1, h.2.1, h.2.2 7 (by decide)⟩

/-- Counterexample for C5: at a concrete input whose offset/cursor sum
exceeds the `u64` maximum, the call aborts (the source `unwrap`s a failed
`checked_add`, a panic) — it does not return an error value, so no
`OffsetOverflow` error is ever produced. -/
theorem C5_overflow_cex :
    (Device.read (fun _ => true) true ⟨[], 1⟩ (LIMIT - 1) 1).2 = .abort .ovf ∧
    (Device.read (fun _ => true) true ⟨[], 1⟩ (LIMIT - 1) 1).2 ≠ .err .ENOMEM := by
  constructor
  · decide
  · decide

/-- C5 (amended): when the offset/cursor sum, or the buffer-length plus
in-block-offset sum, exceeds the `u64` maximum, the call aborts via the
failed `checked_add` unwrap (never wrapping or truncating the sum); it does
not return an error.  The second sum is only reached once `find_block`
succeeded, hence the succeeding allocator in that clause. -/
theorem C5_overflow_amended (ap : Nat → Bool) (ar : Bool) (dev : Device)
    (off L : Nat) (buf : List Nat)
    (hL : L ≠ 0) (hbuf : buf.length = L) :
    (LIMIT ≤ off + dev.cursor →
      (Device.read ap ar dev off L).2 = .abort .ovf ∧
      (Device.write ap ar dev off buf).2 = .abort .ovf) ∧
    (off + dev.cursor < LIMIT →
      LIMIT ≤ L + (off + dev.cursor) % BLOCK_SIZE →
      (Device.read (fun _ => true) true dev off L).2 = .abort .ovf ∧
      (Device.write (fun _ => true) true dev off buf).2 = .abort .ovf) := by
  have hbne : ¬ buf.length = 0 := by
    rw [hbuf]
    exact hL
  constructor
  · intro h1
    have hca : checkedAdd off dev.cursor = none := checkedAdd_none _ _ h1
    constructor
    · simp only [Device.read, if_neg hL, hca]
    · simp only [Device.write, if_neg hbne, hca]
  · intro h1 h2
    have ht := checkedAdd_some off dev.cursor h1
    have hca2 : checkedAdd L ((off + dev.cursor) % BLOCK_SIZE) = none :=
      checkedAdd_none _ _ h2
    have hca2' : checkedAdd buf.length ((off + dev.cursor) % BLOCK_SIZE) = none := by
      rw [hbuf]
      exact hca2
    constructor
    · simp only [Device.read, if_neg hL, ht]
      split
      · rw [hca2]
      · rename_i e hfb2
        rw [(find_block_total dev.data ((off + dev.cursor) / BLOCK_SIZE)).1] at hfb2
        cases hfb2
      · rename_i r hfb2
        exact absurd hfb2 (find_block_no_abort (fun _ => true) true dev.data _ r)
    · simp only [Device.write, if_neg hbne, ht]
      split
      · rw [hca2']
      · rename_i e hfb2
        rw [(find_block_total dev.data ((off + dev.cursor) / BLOCK_SIZE)).1] at hfb2
        cases hfb2
      · rename_i r hfb2
        exact absurd hfb2 (find_block_no_abort (fun _ => true) true dev.data _ r)

/-- Witness for the amended C5 at a concrete overflowing input. -/
theorem C5_overflow_amended_witness :
    (LIMIT ≤ LIMIT - 1 + (⟨[], 1⟩ : Device).cursor →
      (Device.read (fun _ => true) true ⟨[], 1⟩ (LIMIT - 1) 1).2 = .abort .ovf ∧
      (Device.write (fun _ => true) true ⟨[], 1⟩ (LIMIT - 1) [0]).2 = .abort .ovf) ∧
    (LIMIT - 1 + (⟨[], 1⟩ : Device).cursor < LIMIT →
      LIMIT ≤ 1 + (LIMIT - 1 + (⟨[], 1⟩ : Device).cursor) % BLOCK_SIZE →
      (Device.read (fun _ => true) true ⟨[], 1⟩ (LIMIT - 1) 1).2 = .abort .ovf ∧
      (Device.write (fun _ => true) true ⟨[], 1⟩ (LIMIT - 1) [0]).2 = .abort .ovf) :=
  C5_overflow_amended (fun _ => true) true ⟨[], 1⟩ (LIMIT - 1) 1 [0] (by decide) rfl
